import Mathlib

/-!
Change-capture pipeline of `whats/teste-mirrorqlite.go`.

A shallow embedding of the SQLite-update-hook → buffered channel → Postgres
worker pipeline.  The two goroutines that touch `changeCh` (the update hook,
running on the goroutine of the writer, and the worker spawned by
`startChangeWorker`) are embedded as a transition system whose atomic actions
are the channel operations and the external calls of the source; a schedule is
a list of actions.  External collaborators (`json.Marshal`, `pgdb.ExecContext`,
`time.Now`) are parameters collected in `Env`.
-/

namespace Mirror

/-- The Go struct `DBChange` (lines 31-37). -/
structure DBChange where
  Op : Int
  DBName : String
  Table : String
  RowID : Int
  Time : String
deriving DecidableEq, Repr

/-- One invocation of the callback passed to `RegisterUpdateHook` (line 98):
its four arguments, and the string `time.Now().Format(time.RFC3339Nano)` that
the callback reads from the clock (line 105). -/
structure HookCall where
  op : Int
  dbName : String
  table : String
  rowid : Int
  now : String
deriving DecidableEq, Repr

/-- A row of the Postgres table `sqlite_changes (payload, created_at)`. -/
structure Row where
  payload : String
  created_at : Nat
deriving DecidableEq, Repr

/-- The two `log.Println` calls of the pipeline (lines 51 and 108). -/
inductive LogLine where
  | chanFull (table : String) (rowid : Int)
  | pgError (err : String)
deriving DecidableEq, Repr

/-- Control state of the goroutine spawned by `startChangeWorker`:
not yet spawned, blocked in / about to enter the `select` (line 43),
inside the receive branch holding the dequeued value (lines 45-52),
or returned (line 54). -/
inductive Worker where
  | notStarted
  | idle
  | processing (ch : DBChange)
  | stopped
deriving DecidableEq, Repr

/-- External collaborators of the worker.
`marshal` is `json.Marshal` on a `DBChange`.
`execErr done k payload` is the `err` returned by the `k`-th call
`pgdb.ExecContext(ctx, "INSERT ...", payload, time.Now())`, where `done` tells
whether `ctx` has been cancelled by the time the call returns; `none` is the `nil` of Go, in which
case the row has been inserted.
`now k` is the value of `time.Now()` passed to the `k`-th call. -/
structure Env where
  marshal : DBChange → Except String String
  execErr : Bool → Nat → String → Option String
  now : Nat → Nat

/-- State of the pipeline.  `cap` and `changeCh` are the capacity and the buffer
of the channel `changeCh` (line 27); `ctxDone` says whether `ctx` has been
cancelled; `table` is the content of `sqlite_changes`; `logs` is what has been
written through `log.Println`.  The last four fields are history variables:
the record built by each hook invocation, whether its send case was taken, the
records received by the worker, and the payload of every `ExecContext` call. -/
structure State where
  cap : Nat
  changeCh : List DBChange
  ctxDone : Bool
  hookInstalled : Bool
  exited : Bool
  worker : Worker
  table : List Row
  logs : List LogLine
  submitted : List DBChange
  sendResults : List Bool
  received : List DBChange
  execCalls : List String
deriving DecidableEq, Repr

/-- The composite literal of lines 100-106. -/
def mkChange (c : HookCall) : DBChange :=
  { Op := c.op, DBName := c.dbName, Table := c.table, RowID := c.rowid, Time := c.now }

/-- Non-blocking send on a buffered channel (`select { case ch <- x: default: }`):
the send case is ready exactly when the buffer has room; the value is then
appended at the tail.  Returns the new buffer and whether the send case ran.
(A value that Go hands directly to a receiver parked on the empty buffer is
this send followed by the `recv` action.) -/
def trySend (cap : Nat) (buf : List DBChange) (x : DBChange) : List DBChange × Bool :=
  if buf.length < cap then (buf ++ [x], true) else (buf, false)

/-- Body of the update-hook callback (lines 98-110). -/
def updateHook (c : HookCall) (s : State) : State :=
  let x := mkChange c
  let r := trySend s.cap s.changeCh x
  if r.2 then
    { s with changeCh := r.1,
             submitted := s.submitted ++ [x],
             sendResults := s.sendResults ++ [true] }
  else
    { s with logs := s.logs ++ [LogLine.chanFull c.table c.rowid],
             submitted := s.submitted ++ [x],
             sendResults := s.sendResults ++ [false] }

/-- The expression `string(b)` after `b, _ := json.Marshal(ch)` (line 45): the
error is discarded, and on error `b` is nil, which converts to the empty
string. -/
def payloadOf (env : Env) (ch : DBChange) : String :=
  match env.marshal ch with
  | .ok b => b
  | .error _ => ""

/-- Body of the receive branch after the dequeue (lines 45-52). -/
def persist (env : Env) (ch : DBChange) (s : State) : State :=
  let b := payloadOf env ch
  let k := s.execCalls.length
  match env.execErr s.ctxDone k b with
  | none =>
    { s with table := s.table ++ [{ payload := b, created_at := env.now k }],
             execCalls := s.execCalls ++ [b] }
  | some err =>
    { s with logs := s.logs ++ [LogLine.pgError err],
             execCalls := s.execCalls ++ [b] }

/-- Atomic actions of the pipeline.
`hook c`: the SQLite engine invokes the update hook.
`cancel`: `cancel()` is called on `ctx`.
`recv`: the `select` of the worker takes `case ch := <-changeCh` (line 44).
`write`: the worker runs lines 45-52 on the value it holds; the action stands
in the schedule where the `ExecContext` call returns, so a `cancel` that fires
after the dequeue and before that return precedes it.
`done`: the `select` of the worker takes `case <-ctx.Done()` and returns. -/
inductive Action where
  | hook (c : HookCall)
  | cancel
  | recv
  | write
  | done
deriving DecidableEq, Repr

/-- One action; `none` when the action is not enabled in `s`.  In Go a `select`
picks any ready case, so `recv` is enabled whenever the worker is at the
`select` and the buffer is non-empty, cancelled or not, and `done` whenever the
worker is at the `select` and `ctx` is cancelled. -/
def step (env : Env) (a : Action) (s : State) : Option State :=
  if s.exited then none else
  match a with
  | .hook c => if s.hookInstalled then some (updateHook c s) else none
  | .cancel => some { s with ctxDone := true }
  | .recv =>
    match s.worker, s.changeCh with
    | .idle, ch :: rest =>
      some { s with changeCh := rest, worker := .processing ch,
                    received := s.received ++ [ch] }
    | _, _ => none
  | .write =>
    match s.worker with
    | .processing ch => some { persist env ch s with worker := .idle }
    | _ => none
  | .done =>
    match s.worker with
    | .idle => if s.ctxDone then some { s with worker := .stopped } else none
    | _ => none

/-- Run a schedule. -/
def run (env : Env) : List Action → State → Option State
  | [], s => some s
  | a :: as, s => (step env a s).bind (run env as)

/-- Globals at program start (lines 25-28), with the channel capacity as a
parameter (1024 in the source). -/
def boot (cap : Nat) : State :=
  { cap := cap, changeCh := [], ctxDone := false, hookInstalled := false,
    exited := false, worker := .notStarted, table := [], logs := [],
    submitted := [], sendResults := [], received := [], execCalls := [] }

/-- Pipeline started: worker spawned, hook registered, queue empty. -/
def init (cap : Nat) : State :=
  { boot cap with hookInstalled := true, worker := .idle }

/-- The hook invoked on each of `cs` in turn, no other action in between. -/
def hooks (cs : List HookCall) (s : State) : State :=
  cs.foldl (fun st c => updateHook c st) s

/-- The worker drains the buffer: `recv` then `write`, once per buffered
record. -/
def drainSchedule : Nat → List Action
  | 0 => []
  | n + 1 => Action.recv :: Action.write :: drainSchedule n

/-- Rows that reach `sqlite_changes` when the records `q` are passed one after
the other to `ExecContext`, the first of them in call number `k`, under a
context whose cancellation status is `done`: the records whose call returns a
nil error, in order. -/
def rowsWritten (env : Env) (done : Bool) (k : Nat) (q : List DBChange) : List Row :=
  (q.enumFrom k).filterMap (fun p =>
    match env.execErr done p.1 (payloadOf env p.2) with
    | none => some { payload := payloadOf env p.2, created_at := env.now p.1 }
    | some _ => none)

/-- Outcomes of the fallible calls of `main` (lines 85-153), `none` for a nil
error. -/
structure Startup where
  pgOpenErr : Option String
  pgPingErr : Option String
  sqliteOpenErr : Option String
  sqlitePingErr : Option String
  getDeviceErr : Option String
  connectErr : Option String
deriving DecidableEq, Repr

/-- `log.Fatal`: the process exits. -/
def fatal (s : State) : State := { s with exited := true }

/-- `startChangeWorker` (lines 40-58): spawns the worker goroutine. -/
def startChangeWorker (s : State) : State := { s with worker := .idle }

/-- `main` up to the wait for a signal (lines 79-153).  The update hook is
installed by `ConnectHook` when the first SQLite connection is opened, which
`sqliteDB.Ping()` does. -/
def main (cap : Nat) (st : Startup) : State :=
  let s0 := boot cap
  match st.pgOpenErr with
  | some _ => fatal s0
  | none =>
  match st.pgPingErr with
  | some _ => fatal s0
  | none =>
  let s1 := startChangeWorker s0
  match st.sqliteOpenErr with
  | some _ => fatal s1
  | none =>
  match st.sqlitePingErr with
  | some _ => fatal s1
  | none =>
  let s2 := { s1 with hookInstalled := true }
  match st.getDeviceErr with
  | some _ => fatal s2
  | none =>
  match st.connectErr with
  | some _ => fatal s2
  | none => s2

/-- Number of `chanFull` lines in a log. -/
def dropLines (l : List LogLine) : Nat :=
  (l.filter (fun x => match x with | .chanFull _ _ => true | _ => false)).length

/-- Number of hook invocations whose send case was not taken. -/
def dropped (s : State) : Nat := s.sendResults.count false

def envOk : Env :=
  { marshal := fun ch => .ok (ch.Table ++ ":" ++ ch.Time),
    execErr := fun _ _ _ => none,
    now := fun k => k }

def hcA : HookCall := { op := 18, dbName := "main", table := "t", rowid := 1, now := "a" }
def hcB : HookCall := { op := 18, dbName := "main", table := "t", rowid := 2, now := "b" }
def hcC : HookCall := { op := 18, dbName := "main", table := "t", rowid := 3, now := "c" }

/-- A store whose `ExecContext` honours its context: the call fails with
`context canceled` once `ctx` is cancelled, and succeeds otherwise. -/
def envCtx : Env :=
  { marshal := fun ch => .ok (ch.Table ++ ":" ++ ch.Time),
    execErr := fun d _ _ => if d then some "context canceled" else none,
    now := fun k => k }

/-- A store that rejects every second call. -/
def envFlaky : Env :=
  { marshal := fun ch => .ok (ch.Table ++ ":" ++ ch.Time),
    execErr := fun _ k _ => if k % 2 = 1 then some "pq: deadlock detected" else none,
    now := fun k => k }

/-- Startup in which Postgres does not answer the ping. -/
def stPingFails : Startup :=
  { pgOpenErr := none, pgPingErr := some "connection refused", sqliteOpenErr := none,
    sqlitePingErr := none, getDeviceErr := none, connectErr := none }

/-! ## The update hook -/

theorem updateHook_of_room (c : HookCall) (s : State) (h : s.changeCh.length < s.cap) :
    updateHook c s =
      { s with changeCh := s.changeCh ++ [mkChange c],
               submitted := s.submitted ++ [mkChange c],
               sendResults := s.sendResults ++ [true] } := by
  simp [updateHook, trySend, h]

theorem updateHook_of_full (c : HookCall) (s : State) (h : s.cap ≤ s.changeCh.length) :
    updateHook c s =
      { s with logs := s.logs ++ [LogLine.chanFull c.table c.rowid],
               submitted := s.submitted ++ [mkChange c],
               sendResults := s.sendResults ++ [false] } := by
  simp [updateHook, trySend, Nat.not_lt.mpr h]

theorem updateHook_frame (c : HookCall) (s : State) :
    (updateHook c s).cap = s.cap ∧ (updateHook c s).ctxDone = s.ctxDone ∧
    (updateHook c s).hookInstalled = s.hookInstalled ∧
    (updateHook c s).exited = s.exited ∧ (updateHook c s).worker = s.worker ∧
    (updateHook c s).table = s.table ∧ (updateHook c s).received = s.received ∧
    (updateHook c s).execCalls = s.execCalls := by
  by_cases h : s.changeCh.length < s.cap
  · simp [updateHook_of_room c s h]
  · simp [updateHook_of_full c s (Nat.not_lt.mp h)]

theorem hooks_nil (s : State) : hooks [] s = s := rfl

theorem hooks_cons (c : HookCall) (cs : List HookCall) (s : State) :
    hooks (c :: cs) s = hooks cs (updateHook c s) := rfl

theorem hooks_append (cs ds : List HookCall) (s : State) :
    hooks (cs ++ ds) s = hooks ds (hooks cs s) := by
  simp [hooks, List.foldl_append]

theorem hooks_frame (cs : List HookCall) (s : State) :
    (hooks cs s).cap = s.cap ∧ (hooks cs s).ctxDone = s.ctxDone ∧
    (hooks cs s).hookInstalled = s.hookInstalled ∧
    (hooks cs s).exited = s.exited ∧ (hooks cs s).worker = s.worker ∧
    (hooks cs s).table = s.table ∧ (hooks cs s).received = s.received ∧
    (hooks cs s).execCalls = s.execCalls := by
  induction cs generalizing s with
  | nil => simp [hooks_nil]
  | cons c cs ih =>
    rw [hooks_cons]
    obtain ⟨h1, h2, h3, h4, h5, h6, h7, h8⟩ := ih (updateHook c s)
    obtain ⟨g1, g2, g3, g4, g5, g6, g7, g8⟩ := updateHook_frame c s
    exact ⟨h1.trans g1, h2.trans g2, h3.trans g3, h4.trans g4, h5.trans g5,
      h6.trans g6, h7.trans g7, h8.trans g8⟩

theorem updateHook_room_fields (c : HookCall) (s : State) (h : s.changeCh.length < s.cap) :
    (updateHook c s).changeCh = s.changeCh ++ [mkChange c] ∧
    (updateHook c s).sendResults = s.sendResults ++ [true] ∧
    (updateHook c s).submitted = s.submitted ++ [mkChange c] ∧
    (updateHook c s).logs = s.logs := by
  simp [updateHook_of_room c s h]

theorem updateHook_full_fields (c : HookCall) (s : State) (h : s.cap ≤ s.changeCh.length) :
    (updateHook c s).changeCh = s.changeCh ∧
    (updateHook c s).sendResults = s.sendResults ++ [false] ∧
    (updateHook c s).submitted = s.submitted ++ [mkChange c] ∧
    (updateHook c s).logs = s.logs ++ [LogLine.chanFull c.table c.rowid] := by
  simp [updateHook_of_full c s h]

/-- While the records fit, every send case is taken and the records are
appended to the buffer in order. -/
theorem hooks_of_room (cs : List HookCall) (s : State)
    (h : s.changeCh.length + cs.length ≤ s.cap) :
    (hooks cs s).changeCh = s.changeCh ++ cs.map mkChange ∧
    (hooks cs s).sendResults = s.sendResults ++ List.replicate cs.length true ∧
    (hooks cs s).submitted = s.submitted ++ cs.map mkChange ∧
    (hooks cs s).logs = s.logs := by
  induction cs generalizing s with
  | nil => simp [hooks_nil]
  | cons c cs ih =>
    have hlt : s.changeCh.length < s.cap := by
      simp only [List.length_cons] at h; omega
    obtain ⟨u1, u2, u3, u4⟩ := updateHook_room_fields c s hlt
    have hcap := (updateHook_frame c s).1
    obtain ⟨a, b, c1, d⟩ := ih (updateHook c s) (by
      rw [u1, hcap]
      simp only [List.length_append, List.length_cons, List.length_nil] at h ⊢; omega)
    rw [hooks_cons]
    refine ⟨?_, ?_, ?_, ?_⟩
    · rw [a, u1]; simp
    · rw [b, u2]; simp [List.replicate_succ]
    · rw [c1, u3]; simp
    · rw [d, u4]

/-- On a full buffer every default case is taken: the buffer is untouched and
one line is logged per call. -/
theorem hooks_of_full (cs : List HookCall) (s : State)
    (h : s.cap ≤ s.changeCh.length) :
    (hooks cs s).changeCh = s.changeCh ∧
    (hooks cs s).sendResults = s.sendResults ++ List.replicate cs.length false ∧
    (hooks cs s).submitted = s.submitted ++ cs.map mkChange ∧
    (hooks cs s).logs = s.logs ++ cs.map (fun c => LogLine.chanFull c.table c.rowid) := by
  induction cs generalizing s with
  | nil => simp [hooks_nil]
  | cons c cs ih =>
    obtain ⟨u1, u2, u3, u4⟩ := updateHook_full_fields c s h
    have hcap := (updateHook_frame c s).1
    obtain ⟨a, b, c1, d⟩ := ih (updateHook c s) (by rw [u1, hcap]; exact h)
    rw [hooks_cons]
    refine ⟨?_, ?_, ?_, ?_⟩
    · rw [a, u1]
    · rw [b, u2]; simp [List.replicate_succ]
    · rw [c1, u3]; simp
    · rw [d, u4]; simp

/-- A schedule made of hook invocations only runs the hook on each in turn. -/
theorem run_hooks (env : Env) (cs : List HookCall) (s : State)
    (hi : s.hookInstalled = true) (he : s.exited = false) :
    run env (cs.map Action.hook) s = some (hooks cs s) := by
  induction cs generalizing s with
  | nil => rfl
  | cons c cs ih =>
    obtain ⟨_, _, g3, g4, _⟩ := updateHook_frame c s
    simp only [List.map_cons, run, step, he, hi, hooks_cons]
    simpa using ih (updateHook c s) (g3.trans hi) (g4.trans he)

theorem run_append (env : Env) (as bs : List Action) (s : State) :
    run env (as ++ bs) s = (run env as s).bind (run env bs) := by
  induction as generalizing s with
  | nil => simp [run]
  | cons a as ih =>
    simp only [List.cons_append, run]
    cases step env a s with
    | none => rfl
    | some s1 => simpa using ih s1

/-! ## The worker -/

theorem rowsWritten_nil (env : Env) (d : Bool) (k : Nat) : rowsWritten env d k [] = [] := rfl

theorem rowsWritten_cons (env : Env) (d : Bool) (k : Nat) (ch : DBChange) (q : List DBChange) :
    rowsWritten env d k (ch :: q) = rowsWritten env d k [ch] ++ rowsWritten env d (k + 1) q := by
  simp only [rowsWritten, List.enumFrom_cons, List.enumFrom_nil, List.filterMap_cons,
    List.filterMap_nil]
  cases env.execErr d k (payloadOf env ch) <;> simp

theorem rowsWritten_of_ok (env : Env) (d : Bool) (hok : ∀ k p, env.execErr d k p = none)
    (k : Nat) (q : List DBChange) :
    (rowsWritten env d k q).map Row.payload = q.map (payloadOf env) := by
  induction q generalizing k with
  | nil => rfl
  | cons ch q ih =>
    rw [rowsWritten_cons, List.map_append, ih (k + 1)]
    simp [rowsWritten, hok]

/-- Effect of lines 45-52 on the table, the log and the call history. -/
theorem persist_fields (env : Env) (ch : DBChange) (s : State) :
    (persist env ch s).execCalls = s.execCalls ++ [payloadOf env ch] ∧
    (persist env ch s).table = s.table ++ rowsWritten env s.ctxDone s.execCalls.length [ch] ∧
    (persist env ch s).changeCh = s.changeCh ∧ (persist env ch s).received = s.received ∧
    (persist env ch s).ctxDone = s.ctxDone ∧ (persist env ch s).cap = s.cap ∧
    (persist env ch s).exited = s.exited ∧
    (persist env ch s).hookInstalled = s.hookInstalled ∧
    (persist env ch s).sendResults = s.sendResults ∧
    (persist env ch s).submitted = s.submitted ∧
    (persist env ch s).worker = s.worker := by
  unfold persist
  simp only [rowsWritten, List.enumFrom_cons, List.enumFrom_nil, List.filterMap_cons,
    List.filterMap_nil]
  cases env.execErr s.ctxDone s.execCalls.length (payloadOf env ch) <;> simp

/-- One iteration of the worker loop through the receive branch. -/
theorem run_recv_write (env : Env) (s : State) (ch : DBChange) (rest : List DBChange)
    (he : s.exited = false) (hw : s.worker = Worker.idle) (hq : s.changeCh = ch :: rest) :
    ∃ s1, run env [Action.recv, Action.write] s = some s1 ∧
      s1.changeCh = rest ∧ s1.worker = Worker.idle ∧ s1.exited = false ∧
      s1.received = s.received ++ [ch] ∧
      s1.execCalls = s.execCalls ++ [payloadOf env ch] ∧
      s1.table = s.table ++ rowsWritten env s.ctxDone s.execCalls.length [ch] ∧
      s1.ctxDone = s.ctxDone ∧ s1.cap = s.cap ∧ s1.sendResults = s.sendResults ∧
      s1.submitted = s.submitted ∧ s1.hookInstalled = s.hookInstalled := by
  have hr : run env [Action.recv, Action.write] s = some { persist env ch { s with changeCh := rest, worker := Worker.processing ch, received := s.received ++ [ch] } with worker := Worker.idle } := by
    simp [run, step, he, hw, hq]
  obtain ⟨p1, p2, p3, p4, p5, p6, p7, p8, p9, p10, _⟩ :=
    persist_fields env ch { s with changeCh := rest, worker := Worker.processing ch, received := s.received ++ [ch] }
  exact ⟨_, hr, p3, rfl, p7.trans he, p4, p1, p2, p5, p6, p9, p10, p8⟩

/-- Draining: the worker takes the receive branch once per buffered record. -/
theorem run_drain (env : Env) (q : List DBChange) (s : State)
    (he : s.exited = false) (hw : s.worker = Worker.idle) (hq : s.changeCh = q) :
    ∃ s1, run env (drainSchedule q.length) s = some s1 ∧
      s1.changeCh = [] ∧ s1.worker = Worker.idle ∧ s1.exited = false ∧
      s1.received = s.received ++ q ∧
      s1.execCalls = s.execCalls ++ q.map (payloadOf env) ∧
      s1.table = s.table ++ rowsWritten env s.ctxDone s.execCalls.length q ∧
      s1.ctxDone = s.ctxDone ∧ s1.cap = s.cap ∧ s1.sendResults = s.sendResults ∧
      s1.submitted = s.submitted ∧ s1.hookInstalled = s.hookInstalled := by
  induction q generalizing s with
  | nil => exact ⟨s, rfl, hq, hw, he, by simp, by simp, by simp [rowsWritten_nil], rfl, rfl, rfl, rfl, rfl⟩
  | cons ch q ih =>
    obtain ⟨s1, r1, a1, a2, a3, a4, a5, a6, a7, a8, a9, a10, a11⟩ :=
      run_recv_write env s ch q he hw hq
    obtain ⟨s2, r2, b1, b2, b3, b4, b5, b6, b7, b8, b9, b10, b11⟩ := ih s1 a3 a2 a1
    refine ⟨s2, ?_, b1, b2, b3, ?_, ?_, ?_, b7.trans a7, b8.trans a8, b9.trans a9,
      b10.trans a10, b11.trans a11⟩
    · have := run_append env [Action.recv, Action.write] (drainSchedule q.length) s
      simp only [List.cons_append, List.nil_append] at this
      simp only [List.length_cons, drainSchedule]
      rw [this, r1]
      exact r2
    · rw [b4, a4]; simp
    · rw [b5, a5]; simp
    · rw [b6, a6, a5, a7, rowsWritten_cons env s.ctxDone s.execCalls.length ch q]
      simp

theorem step_cases (env : Env) (a : Action) (s s1 : State) (h : step env a s = some s1) :
    s.exited = false ∧
    ((∃ c, a = Action.hook c ∧ s.hookInstalled = true ∧ s1 = updateHook c s) ∨
     (a = Action.cancel ∧ s1 = { s with ctxDone := true }) ∨
     (∃ ch rest, a = Action.recv ∧ s.worker = Worker.idle ∧ s.changeCh = ch :: rest ∧
        s1 = { s with changeCh := rest, worker := Worker.processing ch, received := s.received ++ [ch] }) ∨
     (∃ ch, a = Action.write ∧ s.worker = Worker.processing ch ∧
        s1 = { persist env ch s with worker := Worker.idle }) ∨
     (a = Action.done ∧ s.worker = Worker.idle ∧ s.ctxDone = true ∧
        s1 = { s with worker := Worker.stopped })) := by
  unfold step at h
  by_cases he : s.exited = true
  · simp [he] at h
  · have he2 : s.exited = false := by simpa using he
    refine ⟨he2, ?_⟩
    rw [if_neg he] at h
    cases a with
    | hook c =>
      dsimp only at h
      by_cases hi : s.hookInstalled = true
      · rw [if_pos hi] at h
        exact Or.inl ⟨c, rfl, hi, (Option.some.inj h).symm⟩
      · rw [if_neg hi] at h; exact absurd h (by simp)
    | cancel =>
      dsimp only at h
      exact Or.inr (Or.inl ⟨rfl, (Option.some.inj h).symm⟩)
    | recv =>
      dsimp only at h
      split at h
      · rename_i ch rest hw hq
        exact Or.inr (Or.inr (Or.inl ⟨ch, rest, rfl, hw, hq, (Option.some.inj h).symm⟩))
      · exact absurd h (by simp)
    | write =>
      dsimp only at h
      split at h
      · rename_i ch hw
        exact Or.inr (Or.inr (Or.inr (Or.inl ⟨ch, rfl, hw, (Option.some.inj h).symm⟩)))
      · exact absurd h (by simp)
    | done =>
      dsimp only at h
      split at h
      · rename_i hw
        by_cases hd : s.ctxDone = true
        · rw [if_pos hd] at h
          exact Or.inr (Or.inr (Or.inr (Or.inr ⟨rfl, hw, hd, (Option.some.inj h).symm⟩)))
        · rw [if_neg hd] at h; exact absurd h (by simp)
      · exact absurd h (by simp)

theorem run_preserves (env : Env) (P : State → Prop)
    (hP : ∀ a s s1, P s → step env a s = some s1 → P s1) :
    ∀ (acts : List Action) (s s1 : State), P s → run env acts s = some s1 → P s1 := by
  intro acts
  induction acts with
  | nil =>
    intro s s1 hs h
    simp only [run, Option.some.injEq] at h
    exact h ▸ hs
  | cons a acts ih =>
    intro s s1 hs h
    simp only [run] at h
    cases hst : step env a s with
    | none => rw [hst] at h; exact absurd h (by simp)
    | some s0 =>
      rw [hst] at h
      exact ih s0 s1 (hP a s s0 hs hst) (by simpa using h)

theorem dropLines_append_chanFull (l : List LogLine) (t : String) (r : Int) :
    dropLines (l ++ [LogLine.chanFull t r]) = dropLines l + 1 := by
  simp [dropLines, List.filter_append]

theorem dropLines_append_pgError (l : List LogLine) (e : String) :
    dropLines (l ++ [LogLine.pgError e]) = dropLines l := by
  simp [dropLines, List.filter_append]

theorem persist_dropLines (env : Env) (ch : DBChange) (s : State) :
    dropLines (persist env ch s).logs = dropLines s.logs := by
  cases hx : env.execErr s.ctxDone s.execCalls.length (payloadOf env ch) with
  | none => simp [persist, hx]
  | some e => simp [persist, hx, dropLines_append_pgError]

/-- As long as no send has taken the default case, the records submitted are
the records received followed by the records still buffered. -/
theorem step_fifo (env : Env) (a : Action) (s s1 : State)
    (hinv : (∀ b ∈ s.sendResults, b = true) → s.submitted = s.received ++ s.changeCh)
    (h : step env a s = some s1) :
    (∀ b ∈ s1.sendResults, b = true) → s1.submitted = s1.received ++ s1.changeCh := by
  rcases step_cases env a s s1 h with
    ⟨_, ⟨c, rfl, _, rfl⟩ | ⟨rfl, rfl⟩ | ⟨ch, rest, rfl, _, hq, rfl⟩ | ⟨ch, rfl, _, rfl⟩ |
      ⟨rfl, _, _, rfl⟩⟩
  · intro hall
    have hr := (updateHook_frame c s).2.2.2.2.2.2.1
    by_cases hroom : s.changeCh.length < s.cap
    · obtain ⟨u1, u2, u3, _⟩ := updateHook_room_fields c s hroom
      rw [u2] at hall
      rw [u1, u3, hr, hinv (fun b hb => hall b (List.mem_append_left _ hb))]
      simp
    · obtain ⟨_, u2, _, _⟩ := updateHook_full_fields c s (Nat.not_lt.mp hroom)
      rw [u2] at hall
      exact absurd (hall false (by simp)) (by simp)
  · exact hinv
  · intro hall
    simp only at hall ⊢
    rw [hinv hall, hq]; simp
  · obtain ⟨_, _, p3, p4, _, _, _, _, p9, p10, _⟩ := persist_fields env ch s
    intro hall
    simp only at hall ⊢
    rw [p9] at hall
    rw [p10, p4, p3]
    exact hinv hall
  · exact hinv

/-- Every reachable state has logged one `chanFull` line per failed send, and
the hook is still installed in a live process. -/
theorem step_drops (env : Env) (a : Action) (s s1 : State)
    (hinv : dropLines s.logs = s.sendResults.count false ∧
      s.sendResults.length = s.submitted.length ∧
      s.hookInstalled = true ∧ s.exited = false)
    (h : step env a s = some s1) :
    dropLines s1.logs = s1.sendResults.count false ∧
      s1.sendResults.length = s1.submitted.length ∧
      s1.hookInstalled = true ∧ s1.exited = false := by
  obtain ⟨h1, h2, h3, h4⟩ := hinv
  rcases step_cases env a s s1 h with
    ⟨_, ⟨c, rfl, _, rfl⟩ | ⟨rfl, rfl⟩ | ⟨ch, rest, rfl, _, hq, rfl⟩ | ⟨ch, rfl, _, rfl⟩ |
      ⟨rfl, _, _, rfl⟩⟩
  · obtain ⟨_, _, g3, g4, _⟩ := updateHook_frame c s
    by_cases hroom : s.changeCh.length < s.cap
    · obtain ⟨_, u2, u3, u4⟩ := updateHook_room_fields c s hroom
      refine ⟨?_, ?_, g3.trans h3, g4.trans h4⟩
      · rw [u4, u2, h1]; simp
      · rw [u2, u3]; simp [h2]
    · obtain ⟨_, u2, u3, u4⟩ := updateHook_full_fields c s (Nat.not_lt.mp hroom)
      refine ⟨?_, ?_, g3.trans h3, g4.trans h4⟩
      · rw [u4, u2, dropLines_append_chanFull, h1]; simp
      · rw [u2, u3]; simp [h2]
  · exact ⟨h1, h2, h3, h4⟩
  · exact ⟨h1, h2, h3, h4⟩
  · obtain ⟨_, _, _, _, _, _, p7, p8, p9, p10, _⟩ := persist_fields env ch s
    refine ⟨?_, ?_, ?_, ?_⟩
    · show dropLines (persist env ch s).logs = (persist env ch s).sendResults.count false
      rw [persist_dropLines, p9]; exact h1
    · show (persist env ch s).sendResults.length = (persist env ch s).submitted.length
      rw [p9, p10]; exact h2
    · exact p8.trans h3
    · exact p7.trans h4
  · exact ⟨h1, h2, h3, h4⟩

/-- Once the worker has returned, nothing is received, passed to `ExecContext`
or inserted any more. -/
theorem step_stopped (env : Env) (a : Action) (s s1 : State)
    (hw : s.worker = Worker.stopped) (h : step env a s = some s1) :
    s1.worker = Worker.stopped ∧ s1.received = s.received ∧
      s1.execCalls = s.execCalls ∧ s1.table = s.table := by
  rcases step_cases env a s s1 h with
    ⟨_, ⟨c, rfl, _, rfl⟩ | ⟨rfl, rfl⟩ | ⟨ch, rest, rfl, hw2, hq, rfl⟩ | ⟨ch, rfl, hw2, rfl⟩ |
      ⟨rfl, hw2, _, rfl⟩⟩
  · obtain ⟨_, _, _, _, g5, g6, g7, g8⟩ := updateHook_frame c s
    exact ⟨g5.trans hw, g7, g8, g6⟩
  · exact ⟨hw, rfl, rfl, rfl⟩
  · rw [hw] at hw2; exact absurd hw2 (by simp)
  · rw [hw] at hw2; exact absurd hw2 (by simp)
  · rw [hw] at hw2; exact absurd hw2 (by simp)

/-- Under a store that fails every call made with a cancelled context, no step
taken after the cancellation changes the table. -/
theorem step_cancelled (env : Env) (hrej : ∀ k p, env.execErr true k p ≠ none)
    (a : Action) (s s1 : State)
    (hd : s.ctxDone = true) (h : step env a s = some s1) :
    s1.ctxDone = true ∧ s1.table = s.table := by
  rcases step_cases env a s s1 h with
    ⟨_, ⟨c, rfl, _, rfl⟩ | ⟨rfl, rfl⟩ | ⟨ch, rest, rfl, _, hq, rfl⟩ | ⟨ch, rfl, _, rfl⟩ |
      ⟨rfl, _, _, rfl⟩⟩
  · obtain ⟨_, g2, _, _, _, g6, _⟩ := updateHook_frame c s
    exact ⟨g2.trans hd, g6⟩
  · exact ⟨rfl, rfl⟩
  · exact ⟨hd, rfl⟩
  · obtain ⟨_, p2, _, _, p5, _⟩ := persist_fields env ch s
    refine ⟨p5.trans hd, ?_⟩
    show (persist env ch s).table = s.table
    rw [p2, hd]
    have hne := hrej s.execCalls.length (payloadOf env ch)
    simp only [rowsWritten, List.enumFrom_cons, List.enumFrom_nil, List.filterMap_cons,
      List.filterMap_nil]
    cases hx : env.execErr true s.execCalls.length (payloadOf env ch) with
    | none => exact absurd hx hne
    | some e => simp
  · exact ⟨hd, rfl⟩

/-! ## Claims -/

/-- C1: for every capacity `cap` and every list `cs` of at most `cap` hook
invocations on the freshly started pipeline with no worker action in between,
every send case is taken and the buffer holds the records in submission order;
when the worker then drains the buffer and every `ExecContext` returns a nil
error, the payloads in `sqlite_changes` are the serialised records in
submission order, and the records received are exactly the ones submitted. -/
theorem c1_within_capacity_all_persisted (env : Env) (cap : Nat) (cs : List HookCall)
    (hN : cs.length ≤ cap) (hok : ∀ k p, env.execErr false k p = none) :
    ∃ s1 s2, run env (cs.map Action.hook) (init cap) = some s1 ∧
      s1.sendResults = List.replicate cs.length true ∧
      s1.changeCh = cs.map mkChange ∧
      run env (drainSchedule cs.length) s1 = some s2 ∧
      s2.received = cs.map mkChange ∧
      s2.table.map Row.payload = cs.map (fun c => payloadOf env (mkChange c)) ∧
      s2.changeCh = [] := by
  obtain ⟨a1, a2, _, _⟩ := hooks_of_room cs (init cap) (by simpa [init, boot] using hN)
  obtain ⟨f1, f2, f3, f4, f5, f6, f7, f8⟩ := hooks_frame cs (init cap)
  have hlen : (cs.map mkChange).length = cs.length := by simp
  obtain ⟨s2, r, b1, _, _, b4, _, b6, _⟩ :=
    run_drain env (cs.map mkChange) (hooks cs (init cap)) (f4.trans rfl) (f5.trans rfl)
      (by rw [a1]; rfl)
  rw [hlen] at r
  refine ⟨hooks cs (init cap), s2, run_hooks env cs (init cap) rfl rfl, ?_, ?_, r, ?_, ?_, b1⟩
  · rw [a2]; rfl
  · rw [a1]; rfl
  · rw [b4, f7]; rfl
  · rw [b6, f6, f2]
    have ht : (init cap).table = [] := rfl
    have hd : (init cap).ctxDone = false := rfl
    rw [ht, hd, List.nil_append, rowsWritten_of_ok env _ hok]
    simp [List.map_map, Function.comp_def]

/-- C1, the scenario of the specification: capacity 10, five writes. -/
theorem c1_within_capacity_all_persisted_witness :
    [hcA, hcB, hcC, hcA, hcB].length ≤ 10 ∧
    ∃ s1 s2, run envOk ([hcA, hcB, hcC, hcA, hcB].map Action.hook) (init 10) = some s1 ∧
      s1.sendResults = List.replicate [hcA, hcB, hcC, hcA, hcB].length true ∧
      s1.changeCh = [hcA, hcB, hcC, hcA, hcB].map mkChange ∧
      run envOk (drainSchedule [hcA, hcB, hcC, hcA, hcB].length) s1 = some s2 ∧
      s2.received = [hcA, hcB, hcC, hcA, hcB].map mkChange ∧
      s2.table.map Row.payload =
        [hcA, hcB, hcC, hcA, hcB].map (fun c => payloadOf envOk (mkChange c)) ∧
      s2.changeCh = [] :=
  ⟨by decide, c1_within_capacity_all_persisted envOk 10 [hcA, hcB, hcC, hcA, hcB] (by decide)
    (fun _ _ => rfl)⟩

/-- C2: for every capacity `cap` and every list `cs` of more than `cap` hook
invocations on the freshly started pipeline with no worker action in between,
exactly the first `cap` send cases are taken and the remaining
`cs.length - cap` invocations take the default case; the buffer then holds the
first `cap` records in submission order, and when the worker later drains it,
it receives exactly those records, in that order, and issues its inserts for
them only. -/
theorem c2_overflow_keeps_first_cap (env : Env) (cap : Nat) (cs : List HookCall)
    (hN : cap < cs.length) :
    ∃ s1 s2, run env (cs.map Action.hook) (init cap) = some s1 ∧
      s1.sendResults = List.replicate cap true ++ List.replicate (cs.length - cap) false ∧
      s1.changeCh = (cs.take cap).map mkChange ∧
      run env (drainSchedule cap) s1 = some s2 ∧
      s2.received = (cs.take cap).map mkChange ∧
      s2.execCalls = (cs.take cap).map (fun c => payloadOf env (mkChange c)) ∧
      s2.changeCh = [] := by
  have htl : (cs.take cap).length = cap := by simp; omega
  have hdl : (cs.drop cap).length = cs.length - cap := by simp
  obtain ⟨a1, a2, _, _⟩ := hooks_of_room (cs.take cap) (init cap)
    (by rw [htl]; simp [init, boot])
  have hc0 := (hooks_frame (cs.take cap) (init cap)).1
  obtain ⟨b1, b2, _, _⟩ := hooks_of_full (cs.drop cap) (hooks (cs.take cap) (init cap))
    (by rw [a1, hc0]; simp [init, boot]; omega)
  have hsplit : hooks cs (init cap) = hooks (cs.drop cap) (hooks (cs.take cap) (init cap)) := by
    rw [← hooks_append, List.take_append_drop]
  obtain ⟨f1, f2, f3, f4, f5, f6, f7, f8⟩ := hooks_frame cs (init cap)
  have hq : (hooks cs (init cap)).changeCh = (cs.take cap).map mkChange := by
    rw [hsplit, b1, a1]; rfl
  have hlen : ((cs.take cap).map mkChange).length = cap := by simp; omega
  obtain ⟨s2, r, c1, _, _, c4, c5, _⟩ :=
    run_drain env ((cs.take cap).map mkChange) (hooks cs (init cap)) (f4.trans rfl)
      (f5.trans rfl) hq
  rw [hlen] at r
  refine ⟨hooks cs (init cap), s2, run_hooks env cs (init cap) rfl rfl, ?_, hq, r, ?_, ?_, c1⟩
  · rw [hsplit, b2, a2, htl, hdl]; rfl
  · rw [c4, f7]; rfl
  · rw [c5, f8]
    have : (init cap).execCalls = [] := rfl
    rw [this, List.nil_append]
    simp [List.map_map, Function.comp_def]

/-- C2, the scenario of the specification: capacity 2, records A, B, C. -/
theorem c2_overflow_keeps_first_cap_witness :
    2 < [hcA, hcB, hcC].length ∧
    ∃ s1 s2, run envOk ([hcA, hcB, hcC].map Action.hook) (init 2) = some s1 ∧
      s1.sendResults = List.replicate 2 true ++ List.replicate ([hcA, hcB, hcC].length - 2) false ∧
      s1.changeCh = ([hcA, hcB, hcC].take 2).map mkChange ∧
      run envOk (drainSchedule 2) s1 = some s2 ∧
      s2.received = ([hcA, hcB, hcC].take 2).map mkChange ∧
      s2.execCalls = ([hcA, hcB, hcC].take 2).map (fun c => payloadOf envOk (mkChange c)) ∧
      s2.changeCh = [] :=
  ⟨by decide, c2_overflow_keeps_first_cap envOk 2 [hcA, hcB, hcC] (by decide)⟩

/-- C3: in every schedule of hook invocations, cancellations and worker
actions run from the freshly started pipeline in which no send took the default
case, the records submitted are exactly the records received by the worker
followed by the records still buffered; in particular the received sequence is
an initial segment of the submitted sequence. -/
theorem c3_fifo_without_overflow (env : Env) (cap : Nat) (acts : List Action) (s : State)
    (h : run env acts (init cap) = some s) (hno : ∀ b ∈ s.sendResults, b = true) :
    s.submitted = s.received ++ s.changeCh ∧ s.received <+: s.submitted := by
  have key := run_preserves env
    (fun t => (∀ b ∈ t.sendResults, b = true) → t.submitted = t.received ++ t.changeCh)
    (fun a t t1 ht hst => step_fifo env a t t1 ht hst) acts (init cap) s (fun _ => rfl) h
  exact ⟨key hno, ⟨s.changeCh, (key hno).symm⟩⟩

/-- C3 on an interleaving of three writes with the worker, capacity 2. -/
theorem c3_fifo_without_overflow_witness :
    ∃ s, run envOk [Action.hook hcA, Action.recv, Action.hook hcB, Action.write,
          Action.hook hcC, Action.recv] (init 2) = some s ∧
      (∀ b ∈ s.sendResults, b = true) ∧
      s.submitted = s.received ++ s.changeCh ∧ s.received <+: s.submitted := by
  have h : run envOk [Action.hook hcA, Action.recv, Action.hook hcB, Action.write,
      Action.hook hcC, Action.recv] (init 2) =
      some ((run envOk [Action.hook hcA, Action.recv, Action.hook hcB, Action.write,
        Action.hook hcC, Action.recv] (init 2)).getD (init 2)) := by decide
  exact ⟨_, h, by decide, c3_fifo_without_overflow envOk 2 _ _ h (by decide)⟩

/-- C4: when the buffer holds exactly `cap` records, a hook invocation takes
the default case (the send fails) and leaves the buffer as it was: the same
records in the same order; nothing is received, inserted or evicted. -/
theorem c4_full_queue_drops_new (env : Env) (c : HookCall) (s : State)
    (hfull : s.changeCh.length = s.cap) (hi : s.hookInstalled = true)
    (he : s.exited = false) :
    step env (Action.hook c) s = some (updateHook c s) ∧
    (updateHook c s).changeCh = s.changeCh ∧
    (updateHook c s).sendResults = s.sendResults ++ [false] ∧
    (updateHook c s).received = s.received ∧ (updateHook c s).table = s.table := by
  obtain ⟨u1, u2, _, _⟩ := updateHook_full_fields c s (Nat.le_of_eq hfull.symm)
  obtain ⟨_, _, _, _, _, g6, g7, _⟩ := updateHook_frame c s
  refine ⟨?_, u1, u2, g7, g6⟩
  simp [step, he, hi]

/-- C4 on the full buffer [A, B] of capacity 2, with C arriving. -/
theorem c4_full_queue_drops_new_witness :
    (hooks [hcA, hcB] (init 2)).changeCh.length = (hooks [hcA, hcB] (init 2)).cap ∧
    step envOk (Action.hook hcC) (hooks [hcA, hcB] (init 2)) =
      some (updateHook hcC (hooks [hcA, hcB] (init 2))) ∧
    (updateHook hcC (hooks [hcA, hcB] (init 2))).changeCh = (hooks [hcA, hcB] (init 2)).changeCh ∧
    (updateHook hcC (hooks [hcA, hcB] (init 2))).sendResults =
      (hooks [hcA, hcB] (init 2)).sendResults ++ [false] ∧
    (updateHook hcC (hooks [hcA, hcB] (init 2))).received = (hooks [hcA, hcB] (init 2)).received ∧
    (updateHook hcC (hooks [hcA, hcB] (init 2))).table = (hooks [hcA, hcB] (init 2)).table :=
  ⟨by decide, c4_full_queue_drops_new envOk hcC (hooks [hcA, hcB] (init 2)) (by decide)
    (by decide) (by decide)⟩

/-- C5: for every buffer content `q` and every behaviour of the store, a
running worker that drains the buffer receives every record of `q` in order,
calls `ExecContext` exactly once per record, in order, with the payload of that
record (nothing is retried and nothing goes back into the buffer, which ends
empty), and the rows added to `sqlite_changes` are exactly those of the records
whose call returned a nil error, in dequeue order; the worker is back at its
`select` afterwards. -/
theorem c5_persist_error_drops_only_that_record (env : Env) (q : List DBChange) (s : State)
    (he : s.exited = false) (hw : s.worker = Worker.idle) (hq : s.changeCh = q) :
    ∃ s1, run env (drainSchedule q.length) s = some s1 ∧
      s1.received = s.received ++ q ∧
      s1.execCalls = s.execCalls ++ q.map (payloadOf env) ∧
      s1.changeCh = [] ∧
      s1.table = s.table ++ (q.enumFrom s.execCalls.length).filterMap (fun p =>
        match env.execErr s.ctxDone p.1 (payloadOf env p.2) with
        | none => some { payload := payloadOf env p.2, created_at := env.now p.1 }
        | some _ => none) ∧
      s1.worker = Worker.idle := by
  obtain ⟨s1, r, b1, b2, _, b4, b5, b6, _⟩ := run_drain env q s he hw hq
  exact ⟨s1, r, b4, b5, b1, b6, b2⟩

/-- C5 on the buffer [A, B, C] with a store that rejects the second call: the
table receives A and C. -/
theorem c5_persist_error_drops_only_that_record_witness :
    ∃ s1, run envFlaky (drainSchedule 3) (hooks [hcA, hcB, hcC] (init 3)) = some s1 ∧
      s1.received = [mkChange hcA, mkChange hcB, mkChange hcC] ∧
      s1.execCalls = ["t:a", "t:b", "t:c"] ∧
      s1.changeCh = [] ∧
      s1.table = [{ payload := "t:a", created_at := 0 }, { payload := "t:c", created_at := 2 }] ∧
      s1.worker = Worker.idle :=
  c5_persist_error_drops_only_that_record envFlaky
    [mkChange hcA, mkChange hcB, mkChange hcC] (hooks [hcA, hcB, hcC] (init 3))
    (by decide) (by decide) (by decide)

/-- C6, as stated, fails: capacity 2, A and B buffered, then `cancel()`.  The
`select` of the worker may still take the receive case: it dequeues A and calls
`ExecContext` for it, and only then takes the `ctx.Done()` case.  A record that
was in the buffer at cancellation time has been processed before the exit. -/
theorem c6_counterexample :
    ∃ s0 s1, run envCtx [Action.hook hcA, Action.hook hcB, Action.cancel] (init 2) = some s0 ∧
      s0.ctxDone = true ∧ s0.changeCh = [mkChange hcA, mkChange hcB] ∧
      s0.received = [] ∧ s0.execCalls = [] ∧
      run envCtx [Action.recv, Action.write, Action.done] s0 = some s1 ∧
      s1.received = [mkChange hcA] ∧ s1.execCalls = ["t:a"] ∧
      s1.logs = [LogLine.pgError "context canceled"] ∧
      s1.changeCh = [mkChange hcB] ∧ s1.worker = Worker.stopped :=
  ⟨(run envCtx [Action.hook hcA, Action.hook hcB, Action.cancel] (init 2)).getD (init 2),
   (run envCtx [Action.hook hcA, Action.hook hcB, Action.cancel, Action.recv, Action.write,
      Action.done] (init 2)).getD (init 2),
   by decide, by decide, by decide, by decide, by decide, by decide, by decide, by decide,
   by decide, by decide, by decide⟩

/-- C6, amended: from any state in which `ctx` is cancelled, (a) a worker at
its `select` can take the `ctx.Done()` case at once, which leaves buffer, table
and call history as they are; (b) once the worker has returned it stays
returned, whatever runs next, and nothing more is received, passed to
`ExecContext` or inserted, so the records left in the buffer are never
persisted; and (c) if the store fails every `ExecContext` call made under a
cancelled context, the table never changes after the cancellation, so it holds
only what was written before. -/
theorem c6_after_cancellation (env : Env) (acts : List Action) (s s1 : State)
    (hd : s.ctxDone = true) (h : run env acts s = some s1) :
    (s.exited = false → s.worker = Worker.idle →
      ∃ s2, step env Action.done s = some s2 ∧ s2.worker = Worker.stopped ∧
        s2.changeCh = s.changeCh ∧ s2.table = s.table ∧ s2.execCalls = s.execCalls ∧
        s2.received = s.received) ∧
    (s.worker = Worker.stopped →
      s1.worker = Worker.stopped ∧ s1.received = s.received ∧
      s1.execCalls = s.execCalls ∧ s1.table = s.table) ∧
    ((∀ k p, env.execErr true k p ≠ none) → s1.table = s.table) := by
  refine ⟨?_, ?_, ?_⟩
  · intro he hw
    exact ⟨{ s with worker := Worker.stopped }, by simp [step, he, hw, hd], rfl, rfl, rfl,
      rfl, rfl⟩
  · intro hw
    exact run_preserves env
      (fun t => t.worker = Worker.stopped ∧ t.received = s.received ∧
        t.execCalls = s.execCalls ∧ t.table = s.table)
      (fun a t t1 ht hst => by
        obtain ⟨q1, q2, q3, q4⟩ := step_stopped env a t t1 ht.1 hst
        exact ⟨q1, q2.trans ht.2.1, q3.trans ht.2.2.1, q4.trans ht.2.2.2⟩)
      acts s s1 ⟨hw, rfl, rfl, rfl⟩ h
  · intro hrej
    exact (run_preserves env (fun t => t.ctxDone = true ∧ t.table = s.table)
      (fun a t t1 ht hst => by
        obtain ⟨q1, q2⟩ := step_cancelled env hrej a t t1 ht.1 hst
        exact ⟨q1, q2.trans ht.2⟩)
      acts s s1 ⟨hd, rfl⟩ h).2

/-- C6 amended, on the cancelled state with A and B buffered: the worker
processes A, then returns, then a further write arrives. -/
theorem c6_after_cancellation_witness :
    ∃ s s1, s.ctxDone = true ∧
      run envCtx [Action.recv, Action.write, Action.done, Action.hook hcC] s = some s1 ∧
      (s.exited = false → s.worker = Worker.idle →
        ∃ s2, step envCtx Action.done s = some s2 ∧ s2.worker = Worker.stopped ∧
          s2.changeCh = s.changeCh ∧ s2.table = s.table ∧ s2.execCalls = s.execCalls ∧
          s2.received = s.received) ∧
      (s.worker = Worker.stopped →
        s1.worker = Worker.stopped ∧ s1.received = s.received ∧
        s1.execCalls = s.execCalls ∧ s1.table = s.table) ∧
      ((∀ k p, envCtx.execErr true k p ≠ none) → s1.table = s.table) := by
  have h : run envCtx [Action.recv, Action.write, Action.done, Action.hook hcC]
      (hooks [hcA, hcB] { init 3 with ctxDone := true }) =
      some ((run envCtx [Action.recv, Action.write, Action.done, Action.hook hcC]
        (hooks [hcA, hcB] { init 3 with ctxDone := true })).getD (init 3)) := by decide
  exact ⟨_, _, by decide, h, c6_after_cancellation envCtx _ _ _ (by decide) h⟩

/-- C8, as stated, fails: there is no drop counter.  With capacity 1, the
schedule [A] drops nothing and the schedule [A, B] drops B, yet the two final
states agree on the channel, the context, the worker and the table; the failed
send only adds a log line. -/
theorem c8_counterexample :
    ∃ s1 s2, run envOk [Action.hook hcA] (init 1) = some s1 ∧
      run envOk [Action.hook hcA, Action.hook hcB] (init 1) = some s2 ∧
      dropped s1 = 0 ∧ dropped s2 = 1 ∧
      s2.cap = s1.cap ∧ s2.changeCh = s1.changeCh ∧ s2.ctxDone = s1.ctxDone ∧
      s2.hookInstalled = s1.hookInstalled ∧ s2.exited = s1.exited ∧
      s2.worker = s1.worker ∧ s2.table = s1.table ∧
      s2.logs = s1.logs ++ [LogLine.chanFull "t" 2] :=
  ⟨(run envOk [Action.hook hcA] (init 1)).getD (init 1),
   (run envOk [Action.hook hcA, Action.hook hcB] (init 1)).getD (init 1),
   by decide, by decide, by decide, by decide, by decide, by decide, by decide, by decide,
   by decide, by decide, by decide, by decide⟩

/-- C8, amended: in every state reached from the freshly started pipeline, the
number of `chanFull` lines in the log equals the number of hook invocations
whose send was not taken, every invocation has exactly one recorded result, and
a further invocation always returns, whether its send is taken or not. -/
theorem c8_drops_are_logged (env : Env) (cap : Nat) (acts : List Action) (s : State)
    (h : run env acts (init cap) = some s) :
    dropLines s.logs = dropped s ∧ s.sendResults.length = s.submitted.length ∧
    ∀ c, step env (Action.hook c) s = some (updateHook c s) := by
  obtain ⟨k1, k2, k3, k4⟩ := run_preserves env
    (fun t => dropLines t.logs = t.sendResults.count false ∧
      t.sendResults.length = t.submitted.length ∧
      t.hookInstalled = true ∧ t.exited = false)
    (fun a t t1 ht hst => step_drops env a t t1 ht hst) acts (init cap) s
    ⟨rfl, rfl, rfl, rfl⟩ h
  refine ⟨k1, k2, fun c => ?_⟩
  simp [step, k3, k4]

/-- C8 amended, on capacity 1 with the writes A, B, C and the worker idle. -/
theorem c8_drops_are_logged_witness :
    ∃ s, run envOk [Action.hook hcA, Action.hook hcB, Action.hook hcC] (init 1) = some s ∧
      dropLines s.logs = 2 ∧
      (dropLines s.logs = dropped s ∧ s.sendResults.length = s.submitted.length ∧
        ∀ c, step envOk (Action.hook c) s = some (updateHook c s)) := by
  have h : run envOk [Action.hook hcA, Action.hook hcB, Action.hook hcC] (init 1) =
      some ((run envOk [Action.hook hcA, Action.hook hcB, Action.hook hcC] (init 1)).getD
        (init 1)) := by decide
  exact ⟨_, h, by decide, c8_drops_are_logged envOk 1 _ _ h⟩

/-- C9, as stated, fails: `ctx` is passed to `ExecContext`.  With a store that
honours its context and the worker holding A, the write inserts A if it runs
before `cancel()` and inserts nothing, logging an error, if `cancel()` comes
first. -/
theorem c9_counterexample :
    ∃ s s1 s2, run envCtx [Action.hook hcA, Action.recv] (init 1) = some s ∧
      s.worker = Worker.processing (mkChange hcA) ∧
      run envCtx [Action.write] s = some s1 ∧
      run envCtx [Action.cancel, Action.write] s = some s2 ∧
      s1.table = [{ payload := "t:a", created_at := 0 }] ∧ s1.logs = [] ∧
      s2.table = [] ∧ s2.logs = [LogLine.pgError "context canceled"] :=
  ⟨(run envCtx [Action.hook hcA, Action.recv] (init 1)).getD (init 1),
   (run envCtx [Action.hook hcA, Action.recv, Action.write] (init 1)).getD (init 1),
   (run envCtx [Action.hook hcA, Action.recv, Action.cancel, Action.write] (init 1)).getD
     (init 1),
   by decide, by decide, by decide, by decide, by decide, by decide, by decide, by decide⟩

/-- C9, amended: while the worker holds a dequeued record it cannot take the
`ctx.Done()` case; whether or not `cancel()` fires before the write, exactly
one `ExecContext` call is issued, with the same payload, and the worker returns
to its `select`.  The outcome is whatever `ExecContext` returns under the
context it is given: table and log are the same in both runs whenever the
store answers the call alike under a cancelled and a live context. -/
theorem c9_cancellation_seen_at_select_only (env : Env) (ch : DBChange) (s : State)
    (hw : s.worker = Worker.processing ch) (he : s.exited = false) :
    step env Action.done s = none ∧
    ∃ s1 s2, step env Action.write s = some s1 ∧
      run env [Action.cancel, Action.write] s = some s2 ∧
      s1.worker = Worker.idle ∧ s2.worker = Worker.idle ∧
      s1.execCalls = s.execCalls ++ [payloadOf env ch] ∧ s2.execCalls = s1.execCalls ∧
      (env.execErr true s.execCalls.length (payloadOf env ch) =
          env.execErr s.ctxDone s.execCalls.length (payloadOf env ch) →
        s2.table = s1.table ∧ s2.logs = s1.logs) := by
  refine ⟨by simp [step, he, hw], { persist env ch s with worker := Worker.idle },
    { persist env ch { s with ctxDone := true } with worker := Worker.idle }, ?_, ?_, rfl, rfl,
    (persist_fields env ch s).1, ?_, ?_⟩
  · simp [step, he, hw]
  · simp [run, step, he, hw]
  · rw [(persist_fields env ch s).1]
    exact (persist_fields env ch { s with ctxDone := true }).1
  · intro heq
    simp only [persist]
    simp only [heq]
    cases env.execErr s.ctxDone s.execCalls.length (payloadOf env ch) <;> simp

/-- C9 amended, on the record A held by the worker, with a store that ignores
its context. -/
theorem c9_cancellation_seen_at_select_only_witness :
    ∃ s, s.worker = Worker.processing (mkChange hcA) ∧
      step envOk Action.done s = none ∧
      ∃ s1 s2, step envOk Action.write s = some s1 ∧
        run envOk [Action.cancel, Action.write] s = some s2 ∧
        s1.worker = Worker.idle ∧ s2.worker = Worker.idle ∧
        s1.execCalls = s.execCalls ++ [payloadOf envOk (mkChange hcA)] ∧
        s2.execCalls = s1.execCalls ∧
        (envOk.execErr true s.execCalls.length (payloadOf envOk (mkChange hcA)) =
            envOk.execErr s.ctxDone s.execCalls.length (payloadOf envOk (mkChange hcA)) →
          s2.table = s1.table ∧ s2.logs = s1.logs) :=
  ⟨{ init 1 with worker := Worker.processing (mkChange hcA) }, rfl,
   c9_cancellation_seen_at_select_only envOk (mkChange hcA)
     { init 1 with worker := Worker.processing (mkChange hcA) } rfl rfl⟩

/-- C10: if opening or pinging the Postgres connection fails, `main` exits
through `log.Fatal` with the worker not spawned and the hook not installed, and
from that state no schedule enqueues, receives or inserts anything. -/
theorem c10_no_start_without_store (cap : Nat) (st : Startup)
    (h : st.pgOpenErr ≠ none ∨ st.pgPingErr ≠ none) :
    (main cap st).exited = true ∧ (main cap st).worker = Worker.notStarted ∧
    (main cap st).hookInstalled = false ∧
    ∀ env acts s, run env acts (main cap st) = some s →
      s.submitted = [] ∧ s.changeCh = [] ∧ s.received = [] ∧ s.execCalls = [] ∧
      s.table = [] := by
  have hm : main cap st = fatal (boot cap) := by
    unfold main
    cases ho : st.pgOpenErr with
    | some e => rfl
    | none =>
      cases hp : st.pgPingErr with
      | some e => rfl
      | none => rcases h with h | h <;> simp_all
  rw [hm]
  refine ⟨rfl, rfl, rfl, ?_⟩
  intro env acts s hr
  cases acts with
  | nil =>
    simp only [run, Option.some.injEq] at hr
    subst hr
    exact ⟨rfl, rfl, rfl, rfl, rfl⟩
  | cons a as =>
    have : step env a (fatal (boot cap)) = none := by simp [step, fatal]
    simp [run, this] at hr

/-- C10 when the Postgres ping fails, with the capacity of the source. -/
theorem c10_no_start_without_store_witness :
    (stPingFails.pgOpenErr ≠ none ∨ stPingFails.pgPingErr ≠ none) ∧
    (main 1024 stPingFails).exited = true ∧
    (main 1024 stPingFails).worker = Worker.notStarted ∧
    (main 1024 stPingFails).hookInstalled = false ∧
    ∀ env acts s, run env acts (main 1024 stPingFails) = some s →
      s.submitted = [] ∧ s.changeCh = [] ∧ s.received = [] ∧ s.execCalls = [] ∧
      s.table = [] :=
  ⟨Or.inr (by decide), c10_no_start_without_store 1024 stPingFails (Or.inr (by decide))⟩

end Mirror
